import Mathlib

/-!
Verification model of the JACK audio-server core (jack1).

The repository ships the public API header `jack/jack.h` and an example
client; the engine itself is absent, so every operational definition below
is a shallow embedding modelled from the specification's description of the
port registry, connection set, graph compiler, cycle driver, latency
propagator, monitoring and tie machinery.  Audio samples are idealised as
exact rationals (the spec's builtin type is 32-bit float mono audio).
-/

namespace Jack

/-- Modelled from the spec: the error kinds surfaced by the core (the header
only declares `int` returns; the taxonomy comes from the spec's §7). -/
inductive JackError where
  | NotFound
  | Duplicate
  | TypeMismatch
  | WrongDirection
  | Locked
  | WouldCycle
  | InvalidState
  | Overrun
  | ClientLost
deriving DecidableEq, Repr

/-- Modelled from the spec: a port record of the port registry (the header
only exposes opaque `jack_port_t` handles and accessors). -/
structure Port where
  client : String
  shortName : String
  ptype : String
  flags : Nat
  latency : Nat
  monitorCount : Nat
  lockedBy : Option String
deriving DecidableEq, Repr

/-- Full name `<client>:<short>` as documented for `jack_port_register`. -/
def Port.fullName (p : Port) : String := p.client ++ ":" ++ p.shortName

/-- Flag bit `JackPortIsInput = 0x1`. -/
def Port.isInput (p : Port) : Bool := p.flags.testBit 0

/-- Flag bit `JackPortIsOutput = 0x2`. -/
def Port.isOutput (p : Port) : Bool := p.flags.testBit 1

/-- Flag bit `JackPortCanMonitor = 0x8`. -/
def Port.canMonitor (p : Port) : Bool := p.flags.testBit 3

/-- Flag bit `JackPortIsTerminal = 0x10`. -/
def Port.isTerminal (p : Port) : Bool := p.flags.testBit 4

/-- Modelled from the spec: the control-domain state the engine owns — port
registry, connection set, clients in registration order, and the per-client
tie table (the server holding this state is not in the repository). -/
structure Engine where
  ports : List Port
  connections : List (String × String)
  clients : List String
  ties : List (String × String)
deriving DecidableEq, Repr

/-- Look a port up by its fully qualified name. -/
def findPort (e : Engine) (n : String) : Option Port :=
  e.ports.find? (fun p => p.fullName == n)

def portOwner (e : Engine) (n : String) : Option String :=
  (findPort e n).map (·.client)

def isInputName (e : Engine) (n : String) : Bool :=
  ((findPort e n).map Port.isInput).getD false

def isOutputName (e : Engine) (n : String) : Bool :=
  ((findPort e n).map Port.isOutput).getD false

def canMonitorName (e : Engine) (n : String) : Bool :=
  ((findPort e n).map Port.canMonitor).getD false

def isTerminalName (e : Engine) (n : String) : Bool :=
  ((findPort e n).map Port.isTerminal).getD false

def latencyName (e : Engine) (n : String) : Nat :=
  ((findPort e n).map Port.latency).getD 0

def monitorCountName (e : Engine) (n : String) : Nat :=
  ((findPort e n).map Port.monitorCount).getD 0

def portNames (e : Engine) : List String := e.ports.map Port.fullName

/-! ### Reachability over a finite edge list -/

/-- One step of the directed graph given by the edge list `E`. -/
def eRel (E : List (String × String)) (a b : String) : Prop := (a, b) ∈ E

/-- Bounded reachability: `reachesB E n a b` decides whether `b` can be
reached from `a` in at most `n` steps along edges of `E`. -/
def reachesB (E : List (String × String)) : Nat → String → String → Bool
  | 0, a, b => a == b
  | n + 1, a, b => a == b || E.any (fun pr => pr.1 == a && reachesB E n pr.2 b)

/-- A path along `E` from `a` to `b`; the list records the vertices visited
after `a` (so `b` is the last entry unless the path is empty and `a = b`). -/
inductive StepPath (E : List (String × String)) : String → String → List String → Prop
  | nil : ∀ a, StepPath E a a []
  | cons : ∀ a b c l, (a, b) ∈ E → StepPath E b c l → StepPath E a c (b :: l)

theorem reachesB_mono {E : List (String × String)} :
    ∀ {m n a b}, m ≤ n → reachesB E m a b = true → reachesB E n a b = true := by
  intro m
  induction m with
  | zero =>
    intro n a b _ h
    simp only [reachesB] at h
    cases n with
    | zero => simpa [reachesB] using h
    | succ k => simp [reachesB, h]
  | succ k ih =>
    intro n a b hmn h
    cases n with
    | zero => omega
    | succ n' =>
      simp only [reachesB, Bool.or_eq_true, List.any_eq_true, Bool.and_eq_true] at h ⊢
      rcases h with h | ⟨pr, hpr, h1, h2⟩
      · exact Or.inl h
      · exact Or.inr ⟨pr, hpr, h1, ih (Nat.succ_le_succ_iff.mp hmn) h2⟩

theorem reachesB_sound {E : List (String × String)} :
    ∀ {n a b}, reachesB E n a b = true → Relation.ReflTransGen (eRel E) a b := by
  intro n
  induction n with
  | zero =>
    intro a b h
    simp only [reachesB, beq_iff_eq] at h
    exact h ▸ Relation.ReflTransGen.refl
  | succ k ih =>
    intro a b h
    simp only [reachesB, Bool.or_eq_true, beq_iff_eq, List.any_eq_true,
      Bool.and_eq_true] at h
    rcases h with rfl | ⟨pr, hpr, h1, h2⟩
    · exact Relation.ReflTransGen.refl
    · refine Relation.ReflTransGen.head ?_ (ih h2)
      rcases pr with ⟨x, y⟩
      simp only [beq_iff_eq] at h1
      subst h1
      exact hpr

theorem stepPath_snoc {E : List (String × String)} :
    ∀ {a c l d}, StepPath E a c l → (c, d) ∈ E → StepPath E a d (l ++ [d]) := by
  intro a c l d h
  induction h with
  | nil x => intro hx; exact StepPath.cons x d d [] hx (StepPath.nil d)
  | cons x y z l' hxy _ ih =>
    intro hz
    exact StepPath.cons x y d (l' ++ [d]) hxy (ih hz)

theorem stepPath_of_reflTransGen {E : List (String × String)} {a b : String}
    (h : Relation.ReflTransGen (eRel E) a b) : ∃ l, StepPath E a b l := by
  induction h with
  | refl => exact ⟨[], StepPath.nil a⟩
  | tail _ hstep ih =>
    rcases ih with ⟨l, hl⟩
    exact ⟨l ++ [_], stepPath_snoc hl hstep⟩

theorem stepPath_reachesB {E : List (String × String)} :
    ∀ {a b l}, StepPath E a b l → reachesB E l.length a b = true := by
  intro a b l h
  induction h with
  | nil x => simp [reachesB]
  | cons x y z l' hxy _ ih =>
    simp only [List.length_cons, reachesB, Bool.or_eq_true, List.any_eq_true,
      Bool.and_eq_true]
    exact Or.inr ⟨(x, y), hxy, by simp, ih⟩

/-- Every vertex recorded on a path is the destination of some edge. -/
theorem stepPath_mem_snd {E : List (String × String)} :
    ∀ {a b l}, StepPath E a b l → ∀ x ∈ l, x ∈ E.map Prod.snd := by
  intro a b l h
  induction h with
  | nil x => intro y hy; simp at hy
  | cons x y z l' hxy _ ih =>
    intro w hw
    rcases List.mem_cons.mp hw with rfl | hw'
    · exact List.mem_map.mpr ⟨(x, w), hxy, rfl⟩
    · exact ih w hw'

/-- If `a` occurs on a path, the path has a suffix that is a path from `a`. -/
theorem stepPath_suffix {E : List (String × String)} {v : String} :
    ∀ {x c l}, StepPath E x c l → v ∈ x :: l →
      ∃ l', StepPath E v c l' ∧ (v :: l') <:+ (x :: l) := by
  intro x c l h
  induction h with
  | nil a =>
    intro hv
    rcases List.mem_singleton.mp hv with rfl
    exact ⟨[], StepPath.nil v, List.suffix_refl _⟩
  | cons a b c' l' hab htl ih =>
    intro hv
    rcases List.mem_cons.mp hv with rfl | hv'
    · exact ⟨b :: l', StepPath.cons v b c' l' hab htl, List.suffix_refl _⟩
    · rcases ih hv' with ⟨l'', hp, hs⟩
      exact ⟨l'', hp, hs.trans (List.suffix_cons a (b :: l'))⟩

/-- Any path can be shortened to a duplicate-free path with the same
endpoints. -/
theorem stepPath_shorten {E : List (String × String)} :
    ∀ {a c l}, StepPath E a c l →
      ∃ l', StepPath E a c l' ∧ l'.length ≤ l.length ∧ (a :: l').Nodup := by
  intro a c l h
  induction h with
  | nil x => exact ⟨[], StepPath.nil x, by simp, by simp⟩
  | cons x y z l₁ hxy htl ih =>
    rcases ih with ⟨l₂, hp₂, hlen₂, hnd₂⟩
    by_cases hmem : x ∈ y :: l₂
    · rcases stepPath_suffix hp₂ hmem with ⟨l₃, hp₃, hs₃⟩
      refine ⟨l₃, hp₃, ?_, hs₃.sublist.nodup hnd₂⟩
      have := hs₃.sublist.length_le
      simp only [List.length_cons] at this ⊢
      omega
    · refine ⟨y :: l₂, StepPath.cons x y z l₂ hxy hp₂, by simpa using Nat.succ_le_succ hlen₂, ?_⟩
      exact List.nodup_cons.mpr ⟨hmem, hnd₂⟩

/-- Completeness of bounded reachability: fuel `E.length` suffices. -/
theorem reachesB_complete {E : List (String × String)} {a b : String}
    (h : Relation.ReflTransGen (eRel E) a b) : reachesB E E.length a b = true := by
  rcases stepPath_of_reflTransGen h with ⟨l, hl⟩
  rcases stepPath_shorten hl with ⟨l', hp, _, hnd⟩
  have hsub : l' ⊆ E.map Prod.snd := fun x hx => stepPath_mem_snd hp x hx
  have hnd' : l'.Nodup := (List.nodup_cons.mp hnd).2
  have hlen : l'.length ≤ E.length := by
    have h1 : l'.toFinset.card = l'.length := List.toFinset_card_of_nodup hnd'
    have h2 : l'.toFinset ⊆ (E.map Prod.snd).toFinset := by
      intro x hx
      exact List.mem_toFinset.mpr (hsub (List.mem_toFinset.mp hx))
    have h3 : (E.map Prod.snd).toFinset.card ≤ (E.map Prod.snd).length :=
      E.map Prod.snd |>.toFinset_card_le
    have h4 := Finset.card_le_card h2
    simp only [List.length_map] at h3
    omega
  exact reachesB_mono hlen (stepPath_reachesB hp)

/-- Acyclicity of the directed graph given by the edge list `E`. -/
def AcyclicE (E : List (String × String)) : Prop :=
  ∀ a, ¬ Relation.TransGen (eRel E) a a

theorem reflTransGen_insert_to_target {E : List (String × String)} {u v : String} :
    ∀ {x}, Relation.ReflTransGen (eRel ((u, v) :: E)) x u →
      Relation.ReflTransGen (eRel E) x u := by
  intro x h
  induction h using Relation.ReflTransGen.head_induction_on with
  | refl => exact Relation.ReflTransGen.refl
  | @head a c hstep _ ih =>
    rcases List.mem_cons.mp hstep with heq | hmem
    · simp only [Prod.mk.injEq] at heq
      exact heq.1 ▸ Relation.ReflTransGen.refl
    · exact Relation.ReflTransGen.head hmem ih

theorem transGen_insert {E : List (String × String)} {u v a b : String}
    (h : Relation.TransGen (eRel ((u, v) :: E)) a b) :
    Relation.TransGen (eRel E) a b ∨
      (Relation.ReflTransGen (eRel E) a u ∧ Relation.ReflTransGen (eRel E) v b) := by
  induction h using Relation.TransGen.head_induction_on with
  | @base x hstep =>
    rcases List.mem_cons.mp hstep with heq | hmem
    · simp only [Prod.mk.injEq] at heq
      exact Or.inr ⟨heq.1 ▸ Relation.ReflTransGen.refl, heq.2 ▸ Relation.ReflTransGen.refl⟩
    · exact Or.inl (Relation.TransGen.single hmem)
  | @ih x c hstep _ ihc =>
    rcases List.mem_cons.mp hstep with heq | hmem
    · simp only [Prod.mk.injEq] at heq
      rcases ihc with hcb | ⟨_, hvb⟩
      · exact Or.inr ⟨heq.1 ▸ Relation.ReflTransGen.refl, heq.2 ▸ hcb.to_reflTransGen⟩
      · exact Or.inr ⟨heq.1 ▸ Relation.ReflTransGen.refl, hvb⟩
    · rcases ihc with hcb | ⟨hcu, hvb⟩
      · exact Or.inl (Relation.TransGen.head hmem hcb)
      · exact Or.inr ⟨Relation.ReflTransGen.head hmem hcu, hvb⟩

/-- Inserting an edge `u → v` keeps the graph acyclic as long as `u` is not
already reachable from `v`. -/
theorem acyclicE_insert {E : List (String × String)} {u v : String}
    (hE : AcyclicE E) (hnr : ¬ Relation.ReflTransGen (eRel E) v u) :
    AcyclicE ((u, v) :: E) := by
  intro a ha
  rcases transGen_insert ha with h | ⟨hau, hva⟩
  · exact hE a h
  · exact hnr (hva.trans hau)

theorem acyclicE_subset {E E' : List (String × String)}
    (hsub : ∀ pr ∈ E', pr ∈ E) (hE : AcyclicE E) : AcyclicE E' := by
  intro a ha
  exact hE a (ha.mono (fun x y hxy => hsub (x, y) hxy))

/-- Executable acyclicity check for an edge list. -/
def acyclicEB (E : List (String × String)) : Bool :=
  E.all (fun pr => !reachesB E E.length pr.2 pr.1)

theorem acyclicEB_iff {E : List (String × String)} :
    acyclicEB E = true ↔ AcyclicE E := by
  constructor
  · intro h a ha
    rcases Relation.TransGen.head'_iff.mp ha with ⟨b, hab, hba⟩
    have h1 := reachesB_complete hba
    have h2 := List.all_eq_true.mp h (a, b) hab
    simp only [Bool.not_eq_true'] at h2
    exact absurd h1 (by simp [h2])
  · intro h
    refine List.all_eq_true.mpr ?_
    rintro ⟨x, y⟩ hxy
    simp only [Bool.not_eq_true']
    by_contra hne
    have hr : reachesB E E.length y x = true := by
      cases hyx : reachesB E E.length y x
      · exact absurd hyx hne
      · rfl
    exact h x (Relation.TransGen.head' hxy (reachesB_sound hr))

/-! ### The connection set and its operations -/

/-- The client-level projection of the connection set: one edge from the
source port's owning client to the destination port's owning client per
connection. -/
def clientEdges (e : Engine) : List (String × String) :=
  e.connections.filterMap (fun c =>
    match portOwner e c.1, portOwner e c.2 with
    | some a, some b => some (a, b)
    | _, _ => none)

/-- The client-level graph of the engine is acyclic (connections as edges
between owning clients; same-client input→output pseudo-edges make each
client opaque, so a connection whose two endpoints belong to one client is
already a client-level self-loop). -/
def AcyclicClients (e : Engine) : Prop := AcyclicE (clientEdges e)

/-- A port is locked against a caller when some other client holds its lock. -/
def lockedAgainst (p : Port) (caller : String) : Bool :=
  match p.lockedBy with
  | some c => c != caller
  | none => false

/-- Modelled from the spec: the checks guarding a connect, in order: name
resolution (`NotFound`), direction flags (`WrongDirection`), type tokens
(`TypeMismatch`), duplicate edges (`Duplicate`), port locks held by another
client (`Locked`), and the client-level cycle check (`WouldCycle`). -/
def connectCheck (e : Engine) (caller src dst : String) : Option JackError :=
  match findPort e src, findPort e dst with
  | some ps, some pd =>
    if !(ps.isOutput && pd.isInput) then some .WrongDirection
    else if ps.ptype != pd.ptype then some .TypeMismatch
    else if e.connections.contains (src, dst) then some .Duplicate
    else if lockedAgainst ps caller || lockedAgainst pd caller then some .Locked
    else if reachesB (clientEdges e) (clientEdges e).length pd.client ps.client
    then some .WouldCycle
    else none
  | _, _ => some .NotFound

/-- Modelled from the spec: `jack_connect` — the engine-side connection
installer behind the header's declaration (the implementation is not in the
repository); a rejected connect leaves the connection set unchanged. -/
def jack_connect (e : Engine) (caller src dst : String) : Option JackError × Engine :=
  match connectCheck e caller src dst with
  | some err => (some err, e)
  | none => (none, { e with connections := (src, dst) :: e.connections })

/-- Modelled from the spec: `jack_disconnect` — removes an installed edge;
per the spec a disconnect fails only with `NotFound`. -/
def jack_disconnect (e : Engine) (src dst : String) : Option JackError × Engine :=
  if e.connections.contains (src, dst)
  then (none, { e with connections := e.connections.filter (fun c => c != (src, dst)) })
  else (some .NotFound, e)

/-- A connect or disconnect request submitted through the session manager. -/
inductive ConnOp where
  | connect (caller src dst : String)
  | disconnect (src dst : String)

/-- Modelled from the spec: applying a request to the engine state; a
rejected request leaves the state unchanged. -/
def applyConnOp (e : Engine) : ConnOp → Engine
  | .connect caller src dst => (jack_connect e caller src dst).2
  | .disconnect src dst => (jack_disconnect e src dst).2

def runConnOps (e : Engine) (ops : List ConnOp) : Engine :=
  ops.foldl applyConnOp e

/-- An engine with the given registry but no connections yet. -/
def initEngine (ports : List Port) (clients : List String)
    (ties : List (String × String)) : Engine :=
  ⟨ports, [], clients, ties⟩

/-! ### Graph compiler: the run-list (Kahn's algorithm) -/

/-- A client is ready when no not-yet-emitted client has a connection into
it. -/
def readyB (E : List (String × String)) (rem : List String) (c : String) : Bool :=
  !(E.any (fun pr => pr.2 == c && rem.contains pr.1))

/-- Modelled from the spec: the graph compiler's ordering loop — repeatedly
emit the registration-earliest ready client (Kahn's algorithm over the
client-level DAG with ties broken by registration order). -/
def kahnAux (E : List (String × String)) : Nat → List String → List String
  | 0, _ => []
  | n + 1, rem =>
    match rem.find? (readyB E rem) with
    | none => []
    | some c => c :: kahnAux E n (rem.erase c)

/-- Modelled from the spec: the run-list published to the cycle driver. -/
def runList (e : Engine) : List String :=
  kahnAux (clientEdges e) e.clients.length e.clients

/-! ### Latency propagator -/

/-- Successors of an output port: the destinations of its connections. -/
def connSuccs (e : Engine) (p : String) : List String :=
  (e.connections.filter (fun c => c.1 == p)).map (·.2)

/-- Same-client pseudo-successors of an input port: all non-terminal output
ports of the owning client (a client is opaque; its inputs may feed its
outputs, except across `IsTerminal` ports). -/
def pseudoSuccs (e : Engine) (pp : Port) : List String :=
  (e.ports.filter (fun q =>
    q.client == pp.client && q.isOutput && !q.isTerminal)).map Port.fullName

/-- Modelled from the spec: the edges along which declared latencies are
summed — connections from output ports plus same-client input→output
pseudo-edges; terminal ports end every path (their data neither originates
from nor propagates to other ports). -/
def succs (e : Engine) (p : String) : List String :=
  match findPort e p with
  | none => []
  | some pp =>
    if pp.isTerminal then []
    else (if pp.isOutput then connSuccs e p else []) ++
         (if pp.isInput then pseudoSuccs e pp else [])

/-- The latency graph as an explicit edge list. -/
def portEdges (e : Engine) : List (String × String) :=
  ((portNames e).map (fun p => (succs e p).map (fun q => (p, q)))).flatten

/-- A latency path: from the given port, along `succs`, ending at the first
port flagged `IsTerminal`; the list records every port on the path. -/
inductive TermPath (e : Engine) : String → List String → Prop
  | term : ∀ p, isTerminalName e p = true → TermPath e p [p]
  | step : ∀ p q l, isTerminalName e p = false → q ∈ succs e p →
      TermPath e q l → TermPath e p (p :: l)

/-- The declared latencies along a path, summed. -/
def pathSum (e : Engine) (l : List String) : Nat :=
  (l.map (latencyName e)).sum

/-- Maximum of a list of naturals (0 for the empty list). -/
def maxNat (l : List Nat) : Nat := l.foldr max 0

/-- Bounded enumeration of all latency paths starting at a port. -/
def termPathsB (e : Engine) : Nat → String → List (List String)
  | 0, p => if isTerminalName e p then [[p]] else []
  | n + 1, p =>
    if isTerminalName e p then [[p]]
    else ((succs e p).map (fun q => (termPathsB e n q).map (p :: ·))).flatten

/-- Modelled from the spec: `jack_port_get_total_latency` — the maximum over
all connection paths from the port to a terminal port of the sum of declared
latencies along the path (the header only declares the accessor). -/
def jack_port_get_total_latency (e : Engine) (p : String) : Nat :=
  maxNat ((termPathsB e e.ports.length p).map (pathSum e))

/-! ### Buffer pool and cycle driver -/

/-- The source output ports feeding an input port. -/
def inboundSources (e : Engine) (p : String) : List String :=
  (e.connections.filter (fun c => c.2 == p)).map (·.1)

/-- Scratch mix buffer: the element-wise sum of the sources' buffers.
Samples are idealised as exact rationals. -/
def mixBuffer (bufs : String → List ℚ) (srcs : List String) (n : Nat) : List ℚ :=
  (List.range n).map (fun i => (srcs.map (fun s => (bufs s).getD i 0)).sum)

/-- Modelled from the spec: the routing decision for an input port — `zero`
when it has no inbound connection, the single source's buffer (aliased) when
it has one, and the scratch mix buffer when it has two or more. -/
def inputBufferAt (e : Engine) (bufs : String → List ℚ) (n : Nat) (p : String) :
    List ℚ :=
  match inboundSources e p with
  | [] => List.replicate n 0
  | [s] => bufs s
  | srcs => mixBuffer bufs srcs n

/-- Modelled from the spec: `jack_port_get_buffer` — an output port sees its
write buffer for this cycle, an input port sees the routed data. -/
def jack_port_get_buffer (e : Engine) (bufs : String → List ℚ) (n : Nat)
    (p : String) : List ℚ :=
  if isInputName e p then inputBufferAt e bufs n p else bufs p

/-- The tied input port feeding an output port, if any. -/
def tieSourceFor (e : Engine) (o : String) : Option String :=
  (e.ties.find? (fun t => t.2 == o)).map (·.1)

/-- Modelled from the spec: dispatching one client of the run-list — its
process callback writes its output-port buffers; if the client overran, its
outputs are treated as silence; ties are resolved after the callback, the
tied input's contents replacing whatever the callback wrote. -/
def applyClient (e : Engine) (beh : String → (String → List ℚ) → String → List ℚ)
    (ov : String → Bool) (n : Nat) (bufs : String → List ℚ) (c : String) :
    String → List ℚ :=
  fun p =>
    if (portOwner e p == some c) && isOutputName e p then
      if ov c then List.replicate n 0
      else
        match tieSourceFor e p with
        | some i => jack_port_get_buffer e bufs n i
        | none => beh c (jack_port_get_buffer e bufs n) p
    else bufs p

/-- Modelled from the spec: one cycle of the driver — walk the run-list in
order, dispatching every client; `beh c` is client `c`'s process callback
(from the buffers it can read to the buffers it writes), `ov c` tells
whether `c` misses the deadline this cycle. -/
def cycleBufs (e : Engine) (beh : String → (String → List ℚ) → String → List ℚ)
    (ov : String → Bool) (n : Nat) (order : List String) : String → List ℚ :=
  order.foldl (applyClient e beh ov n) (fun _ => List.replicate n 0)

/-- What one cycle produces: final buffers, the overrun notifications
raised, and the run-list for the next cycle. -/
structure CycleResult where
  bufs : String → List ℚ
  overrunClients : List String
  nextOrder : List String

/-- Modelled from the spec: a full cycle — an overrun is reported through a
notification, never by evicting the client, so the next cycle runs the same
list. -/
def runCycle (e : Engine) (beh : String → (String → List ℚ) → String → List ℚ)
    (ov : String → Bool) (n : Nat) (order : List String) : CycleResult :=
  ⟨cycleBufs e beh ov n order, order.filter (fun c => ov c), order⟩

/-- Modelled from the spec: `jack_port_tie` — the source must be an input
port, the destination an output port, and both must belong to the same
client. -/
def jack_port_tie (e : Engine) (src dst : String) : Option JackError × Engine :=
  match findPort e src, findPort e dst with
  | some ps, some pd =>
    if !(ps.isInput && pd.isOutput) then (some .WrongDirection, e)
    else if ps.client != pd.client then (some .InvalidState, e)
    else (none, { e with ties := (src, dst) :: e.ties })
  | _, _ => (some .NotFound, e)

/-! ### Monitoring -/

/-- Replace the first port with the given full name. -/
def replacePort : List Port → String → Port → List Port
  | [], _, _ => []
  | q :: rest, pname, newq =>
    if q.fullName == pname then newq :: rest else q :: replacePort rest pname newq

/-- Modelled from the spec: `jack_port_ensure_monitor` — forces the
monitor-request count to at least 1 on `on` and to exactly 0 on `off`;
without `CanMonitor` it has no effect. -/
def jack_port_ensure_monitor (e : Engine) (p : String) (onoff : Bool) : Engine :=
  match findPort e p with
  | none => e
  | some q =>
    if q.canMonitor then
      let newq : Port := { q with monitorCount := if onoff then max q.monitorCount 1 else 0 }
      { e with ports := replacePort e.ports p newq }
    else e

/-- Modelled from the spec: `jack_port_monitoring_input` — whether input
monitoring has been requested for the port. -/
def jack_port_monitoring_input (e : Engine) (p : String) : Bool :=
  decide (0 < monitorCountName e p)

/-! ### Connection queries -/

/-- The full names of the ports directly connected to a port, in either
direction. -/
def connectedPorts (e : Engine) (p : String) : List String :=
  (e.connections.filter (fun c => c.1 == p)).map (·.2) ++
  (e.connections.filter (fun c => c.2 == p)).map (·.1)

/-- Modelled from the spec: `jack_port_get_connections` — NULL (here `none`)
when there are no connections, otherwise the array of connected port
names. -/
def jack_port_get_connections (e : Engine) (p : String) : Option (List String) :=
  let l := connectedPorts e p
  if l.isEmpty then none else some l

/-- Modelled from the spec: `jack_port_connected` — TRUE or FALSE according
to whether any connection touches the port. -/
def jack_port_connected (e : Engine) (p : String) : Bool :=
  !(connectedPorts e p).isEmpty

/-- Two ports are directly connected when some installed connection joins
them, in either direction. -/
def DirectlyConnected (e : Engine) (p q : String) : Prop :=
  (p, q) ∈ e.connections ∨ (q, p) ∈ e.connections

/-! ### Concrete scenario engines -/

/-- The builtin port type token. -/
def audioType : String := "32 bit float mono audio"

/-- A fresh port: monitor count 0, unlocked. -/
def mkPort (client short ptype : String) (flags latency : Nat) : Port :=
  ⟨client, short, ptype, flags, latency, 0, none⟩

/-- Scenario: one client with an output and an input port. -/
def engA : Engine :=
  initEngine [mkPort "A" "out" audioType 2 0, mkPort "A" "in" audioType 1 0] ["A"] []

/-- Scenario: two clients, each with an output and an input port. -/
def engAB0 : Engine :=
  initEngine
    [mkPort "A" "out" audioType 2 0, mkPort "A" "in" audioType 1 0,
     mkPort "B" "out" audioType 2 0, mkPort "B" "in" audioType 1 0]
    ["A", "B"] []

/-- `engAB0` after the accepted connect `A:out → B:in`. -/
def engAB1 : Engine := (jack_connect engAB0 "A" "A:out" "B:in").2

/-- Scenario for the run-list tie-break: clients registered A, B, C with the
single connection `C:out → A:in`. -/
def engC3 : Engine :=
  ⟨[mkPort "C" "out" audioType 2 0, mkPort "A" "in" audioType 1 0],
   [("C:out", "A:in")], ["A", "B", "C"], []⟩

/-- The spec's latency scenario: `A:in=64`, `A:out=0`, `B:in=0`, `B:out=128`,
terminal `OUT:in=32`, connections `A:out→B:in` and `B:out→OUT:in`. -/
def scen6 : Engine :=
  ⟨[mkPort "A" "in" audioType 1 64, mkPort "A" "out" audioType 2 0,
    mkPort "B" "in" audioType 1 0, mkPort "B" "out" audioType 2 128,
    mkPort "OUT" "in" audioType 17 32],
   [("A:out", "B:in"), ("B:out", "OUT:in")], ["A", "B", "OUT"], []⟩

/-- Fan-in scenario: `A:out` and `B:out` both feed `C:in`. -/
def engMix : Engine :=
  ⟨[mkPort "A" "out" audioType 2 0, mkPort "B" "out" audioType 2 0,
    mkPort "C" "in" audioType 1 0],
   [("A:out", "C:in"), ("B:out", "C:in")], ["A", "B", "C"], []⟩

/-- Concrete output buffers for the fan-in scenario. -/
def bufsMix : String → List ℚ :=
  fun p => if p == "A:out" then [1, 1, 1, 1]
           else if p == "B:out" then [5/2, -(1/2), 0, 4] else []

/-- Tie scenario: external client E feeds `X:in`, which is tied to `X:out`. -/
def engTie : Engine :=
  ⟨[mkPort "E" "out" audioType 2 0, mkPort "X" "in" audioType 1 0,
    mkPort "X" "out" audioType 2 0],
   [("E:out", "X:in")], ["E", "X"], [("X:in", "X:out")]⟩

/-- Callbacks for the tie scenario: E produces sevens; X writes nines to
everything it owns (which the tie must override). -/
def behTie : String → (String → List ℚ) → String → List ℚ :=
  fun c _ p => if c == "E" && p == "E:out" then [7, 7, 7, 7] else [9, 9, 9, 9]

/-- No client misses its deadline. -/
def ovNone : String → Bool := fun _ => false

/-- Overrun scenario: chain `A → Y → Z`. -/
def engChain : Engine :=
  ⟨[mkPort "A" "out" audioType 2 0, mkPort "Y" "in" audioType 1 0,
    mkPort "Y" "out" audioType 2 0, mkPort "Z" "in" audioType 1 0],
   [("A:out", "Y:in"), ("Y:out", "Z:in")], ["A", "Y", "Z"], []⟩

/-- Callbacks for the overrun scenario. -/
def behChain : String → (String → List ℚ) → String → List ℚ :=
  fun c _ p => if c == "A" && p == "A:out" then [1, 1, 1, 1] else [2, 2, 2, 2]

/-- Client Y sleeps beyond the period. -/
def ovY : String → Bool := fun c => c == "Y"

/-- Monitoring scenario: a `CanMonitor` output port with a stale request
count, and a port without the flag. -/
def engMon : Engine :=
  ⟨[⟨"M", "out", audioType, 10, 0, 5, none⟩, ⟨"M", "plain", audioType, 2, 0, 3, none⟩],
   [], ["M"], []⟩

/-- Connection-query scenario: one connection `P:out → Q:in`, and an
untouched port `Q:alone`. -/
def engConn : Engine :=
  ⟨[mkPort "P" "out" audioType 2 0, mkPort "Q" "in" audioType 1 0,
    mkPort "Q" "alone" audioType 1 0],
   [("P:out", "Q:in")], ["P", "Q"], []⟩

/-- Error-taxonomy scenario: a locked destination port. -/
def engC4 : Engine :=
  ⟨[mkPort "A" "out" audioType 2 0,
    ⟨"B", "in", audioType, 1, 0, 0, some "B"⟩],
   [], ["A", "B"], []⟩

/-! ## Theorems -/

theorem findPort_connections (e : Engine) (cs : List (String × String)) (n : String) :
    findPort { e with connections := cs } n = findPort e n := rfl

theorem findPort_name {e : Engine} {n : String} {p : Port}
    (h : findPort e n = some p) : p.fullName = n ∧ p ∈ e.ports := by
  have h1 := List.find?_some h
  have h2 := List.mem_of_find?_eq_some h
  exact ⟨by simpa using h1, h2⟩

theorem clientEdges_cons {e : Engine} {src dst : String} {ps pd : Port}
    (hs : findPort e src = some ps) (hd : findPort e dst = some pd) :
    clientEdges { e with connections := (src, dst) :: e.connections } =
      (ps.client, pd.client) :: clientEdges e := by
  simp [clientEdges, portOwner, findPort_connections, hs, hd]

theorem acyclicE_nil : AcyclicE [] := by
  intro a ha
  rcases Relation.TransGen.head'_iff.mp ha with ⟨b, hab, _⟩
  simp [eRel] at hab

theorem initEngine_acyclic (ports : List Port) (clients : List String)
    (ties : List (String × String)) : AcyclicClients (initEngine ports clients ties) := by
  have h : clientEdges (initEngine ports clients ties) = [] := rfl
  unfold AcyclicClients
  rw [h]
  exact acyclicE_nil

/-- When the checks pass, both endpoints resolve and the destination's
client does not already reach the source's client. -/
theorem connectCheck_none {e : Engine} {caller src dst : String}
    (h : connectCheck e caller src dst = none) :
    ∃ ps pd, findPort e src = some ps ∧ findPort e dst = some pd ∧
      reachesB (clientEdges e) (clientEdges e).length pd.client ps.client = false := by
  unfold connectCheck at h
  cases hs : findPort e src with
  | none => rw [hs] at h; simp at h
  | some ps =>
    cases hd : findPort e dst with
    | none => rw [hs, hd] at h; simp at h
    | some pd =>
      rw [hs, hd] at h
      simp only at h
      split at h
      · simp at h
      split at h
      · simp at h
      split at h
      · simp at h
      split at h
      · simp at h
      split at h
      · simp at h
      rename_i hcyc
      exact ⟨ps, pd, rfl, rfl, by simpa using hcyc⟩

theorem applyConnOp_acyclic {e : Engine} (h : AcyclicClients e) :
    ∀ op, AcyclicClients (applyConnOp e op) := by
  intro op
  cases op with
  | connect caller src dst =>
    show AcyclicClients (jack_connect e caller src dst).2
    unfold jack_connect
    cases hc : connectCheck e caller src dst with
    | some err => exact h
    | none =>
      rcases connectCheck_none hc with ⟨ps, pd, hs, hd, hcyc⟩
      show AcyclicClients { e with connections := (src, dst) :: e.connections }
      unfold AcyclicClients
      rw [clientEdges_cons hs hd]
      refine acyclicE_insert h ?_
      intro hr
      exact absurd (reachesB_complete hr) (by simp [hcyc])
  | disconnect src dst =>
    show AcyclicClients (jack_disconnect e src dst).2
    unfold jack_disconnect
    split
    · refine acyclicE_subset ?_ h
      intro pr hpr
      unfold clientEdges at hpr ⊢
      have hsub : (e.connections.filter (fun c => c != (src, dst))).Sublist e.connections :=
        List.filter_sublist _
      exact (hsub.filterMap _).mem hpr
    · exact h

theorem runConnOps_acyclic {e : Engine} (h : AcyclicClients e) :
    ∀ ops, AcyclicClients (runConnOps e ops) := by
  intro ops
  induction ops generalizing e with
  | nil => exact h
  | cons op rest ih => exact ih (applyConnOp_acyclic h op)

theorem jack_connect_fail_unchanged (e : Engine) (caller src dst : String)
    (err : JackError) (h : (jack_connect e caller src dst).1 = some err) :
    (jack_connect e caller src dst).2 = e := by
  unfold jack_connect at h ⊢
  cases hc : connectCheck e caller src dst with
  | some err' => rfl
  | none => rw [hc] at h; simp at h

/-- C1: every sequence of accepted connect and disconnect operations keeps
the client-level graph (connections as edges between owning clients, each
client being opaque from its inputs to its outputs) acyclic; a connect whose
installation would create a cycle — a self-connection `A:out → A:in`, or
the closing edge `B:out → A:in` after `A:out → B:in` — is rejected with
`WouldCycle` and leaves the connection set unchanged. -/
theorem connect_rejects_cycles :
    (∀ ports clients ties ops, AcyclicClients (runConnOps (initEngine ports clients ties) ops))
    ∧ (∀ e caller src dst err, (jack_connect e caller src dst).1 = some err →
        (jack_connect e caller src dst).2 = e)
    ∧ (jack_connect engA "A" "A:out" "A:in").1 = some JackError.WouldCycle
    ∧ (jack_connect engAB1 "B" "B:out" "A:in").1 = some JackError.WouldCycle
    ∧ (jack_connect engAB1 "B" "B:out" "A:in").2 = engAB1
    ∧ engAB1.connections = [("A:out", "B:in")] := by
  refine ⟨?_, ?_, by decide, by decide, by decide, by decide⟩
  · intro ports clients ties ops
    exact runConnOps_acyclic (initEngine_acyclic ports clients ties) ops
  · exact jack_connect_fail_unchanged

theorem connect_rejects_cycles_witness :
    (jack_connect engA "A" "A:out" "nope").2 = engA :=
  connect_rejects_cycles.2.1 engA "A" "A:out" "nope" JackError.NotFound (by decide)

/-- On an acyclic graph, the connect-time reachability test is exactly
"installing this edge makes the client graph cyclic". -/
theorem wouldCycle_iff {e : Engine} {ps pd : Port}
    (hacyc : AcyclicE (clientEdges e)) :
    reachesB (clientEdges e) (clientEdges e).length pd.client ps.client = true ↔
      ¬ AcyclicE ((ps.client, pd.client) :: clientEdges e) := by
  constructor
  · intro hr hA
    refine hA ps.client (Relation.TransGen.head' (List.mem_cons_self _ _) ?_)
    exact (reachesB_sound hr).mono (fun x y hxy => List.mem_cons_of_mem _ hxy)
  · intro hnA
    by_contra hf
    refine hnA (acyclicE_insert hacyc ?_)
    intro hr
    exact hf (reachesB_complete hr)

/-- C4: a connect fails with exactly one of the specified errors under the
corresponding condition — `NotFound` when a name does not resolve,
`WrongDirection` when the flags are wrong, `TypeMismatch` when the type
strings differ, `Duplicate` when the edge is already installed, `Locked`
when an endpoint is locked by a client other than the caller, `WouldCycle`
when installing the edge would make the client graph cyclic — succeeds
exactly when no condition holds (installing the edge), and on any failure
leaves the connection set unchanged. -/
theorem connect_error_taxonomy :
    ∀ e caller src dst,
      ((jack_connect e caller src dst).1 = some JackError.NotFound ↔
        (findPort e src = none ∨ findPort e dst = none))
      ∧ (∀ ps pd, findPort e src = some ps → findPort e dst = some pd →
          ((jack_connect e caller src dst).1 = some JackError.WrongDirection ↔
            ¬(ps.isOutput = true ∧ pd.isInput = true))
          ∧ ((jack_connect e caller src dst).1 = some JackError.TypeMismatch ↔
            ((ps.isOutput = true ∧ pd.isInput = true) ∧ ps.ptype ≠ pd.ptype))
          ∧ ((jack_connect e caller src dst).1 = some JackError.Duplicate ↔
            ((ps.isOutput = true ∧ pd.isInput = true) ∧ ps.ptype = pd.ptype ∧
              (src, dst) ∈ e.connections))
          ∧ ((jack_connect e caller src dst).1 = some JackError.Locked ↔
            ((ps.isOutput = true ∧ pd.isInput = true) ∧ ps.ptype = pd.ptype ∧
              (src, dst) ∉ e.connections ∧
              (lockedAgainst ps caller = true ∨ lockedAgainst pd caller = true)))
          ∧ ((jack_connect e caller src dst).1 = some JackError.WouldCycle ↔
            ((ps.isOutput = true ∧ pd.isInput = true) ∧ ps.ptype = pd.ptype ∧
              (src, dst) ∉ e.connections ∧
              ¬(lockedAgainst ps caller = true ∨ lockedAgainst pd caller = true) ∧
              reachesB (clientEdges e) (clientEdges e).length pd.client ps.client = true))
          ∧ (AcyclicClients e →
              ((jack_connect e caller src dst).1 = some JackError.WouldCycle ↔
                ((ps.isOutput = true ∧ pd.isInput = true) ∧ ps.ptype = pd.ptype ∧
                  (src, dst) ∉ e.connections ∧
                  ¬(lockedAgainst ps caller = true ∨ lockedAgainst pd caller = true) ∧
                  ¬ AcyclicClients { e with connections := (src, dst) :: e.connections })))
          ∧ ((jack_connect e caller src dst).1 = none ↔
            ((ps.isOutput = true ∧ pd.isInput = true) ∧ ps.ptype = pd.ptype ∧
              (src, dst) ∉ e.connections ∧
              ¬(lockedAgainst ps caller = true ∨ lockedAgainst pd caller = true) ∧
              reachesB (clientEdges e) (clientEdges e).length pd.client ps.client = false))
          ∧ ((jack_connect e caller src dst).1 = none →
            (jack_connect e caller src dst).2 =
              { e with connections := (src, dst) :: e.connections }))
      ∧ (∀ err, (jack_connect e caller src dst).1 = some err →
          (jack_connect e caller src dst).2 = e) := by
  intro e caller src dst
  refine ⟨?_, ?_, jack_connect_fail_unchanged e caller src dst⟩
  · unfold jack_connect connectCheck
    cases hs : findPort e src with
    | none => simp
    | some ps =>
      cases hd : findPort e dst with
      | none => simp
      | some pd =>
        simp only
        split_ifs <;> simp [hs, hd]
  · intro ps pd hs hd
    have hrw : ∀ err, ((jack_connect e caller src dst).1 = err ↔
        connectCheck e caller src dst = err) := by
      intro err
      unfold jack_connect
      cases hc : connectCheck e caller src dst <;> simp
    have hcc : connectCheck e caller src dst =
        (if !(ps.isOutput && pd.isInput) then some JackError.WrongDirection
         else if ps.ptype != pd.ptype then some JackError.TypeMismatch
         else if e.connections.contains (src, dst) then some JackError.Duplicate
         else if lockedAgainst ps caller || lockedAgainst pd caller then some JackError.Locked
         else if reachesB (clientEdges e) (clientEdges e).length pd.client ps.client
         then some JackError.WouldCycle
         else none) := by
      unfold connectCheck
      rw [hs, hd]
    refine ⟨?_, ?_, ?_, ?_, ?_, ?_, ?_, ?_⟩
    · rw [hrw, hcc]
      split_ifs <;> simp_all <;> try (intros; simp_all)
    · rw [hrw, hcc]
      split_ifs <;> simp_all <;> try (intros; simp_all)
    · rw [hrw, hcc]
      split_ifs <;> simp_all <;> try (intros; simp_all)
    · rw [hrw, hcc]
      split_ifs <;> simp_all <;> try (intros; simp_all)
    · rw [hrw, hcc]
      split_ifs <;> simp_all <;> try (intros; simp_all)
    · intro hacyc
      have hsem : reachesB (clientEdges e) (clientEdges e).length pd.client ps.client = true ↔
          ¬ AcyclicE ((ps.client, pd.client) :: clientEdges e) := wouldCycle_iff hacyc
      have hsyn : (jack_connect e caller src dst).1 = some JackError.WouldCycle ↔
          ((ps.isOutput = true ∧ pd.isInput = true) ∧ ps.ptype = pd.ptype ∧
            (src, dst) ∉ e.connections ∧
            ¬(lockedAgainst ps caller = true ∨ lockedAgainst pd caller = true) ∧
            reachesB (clientEdges e) (clientEdges e).length pd.client ps.client = true) := by
        rw [hrw, hcc]
        split_ifs <;> simp_all <;> try (intros; simp_all)
      rw [hsyn]
      unfold AcyclicClients
      rw [clientEdges_cons hs hd]
      constructor
      · rintro ⟨h1, h2, h3, h4, h5⟩
        exact ⟨h1, h2, h3, h4, hsem.mp h5⟩
      · rintro ⟨h1, h2, h3, h4, h5⟩
        exact ⟨h1, h2, h3, h4, hsem.mpr h5⟩
    · rw [hrw, hcc]
      split_ifs <;> simp_all <;> try (intros; simp_all)
    · intro hnone
      unfold jack_connect at hnone ⊢
      cases hc : connectCheck e caller src dst with
      | some err => rw [hc] at hnone; simp at hnone
      | none => rfl

theorem mem_connectedPorts (e : Engine) (p q : String) :
    q ∈ connectedPorts e p ↔ DirectlyConnected e p q := by
  unfold connectedPorts DirectlyConnected
  simp only [List.mem_append, List.mem_map, List.mem_filter, beq_iff_eq]
  constructor
  · rintro (⟨⟨a, b⟩, ⟨hm, h1⟩, h2⟩ | ⟨⟨a, b⟩, ⟨hm, h1⟩, h2⟩)
    · simp only at h1 h2
      subst h1; subst h2
      exact Or.inl hm
    · simp only at h1 h2
      subst h1; subst h2
      exact Or.inr hm
  · rintro (h | h)
    · exact Or.inl ⟨(p, q), ⟨h, rfl⟩, rfl⟩
    · exact Or.inr ⟨(q, p), ⟨h, rfl⟩, rfl⟩

/-- C10: `jack_port_get_connections` returns NULL exactly when the port has
no connections — equivalently when `jack_port_connected` is FALSE — and
otherwise returns precisely the names of the directly connected ports. -/
theorem get_connections_null_iff :
    ∀ e p,
      (jack_port_get_connections e p = none ↔ jack_port_connected e p = false)
      ∧ (jack_port_connected e p = false ↔ connectedPorts e p = [])
      ∧ (∀ l, jack_port_get_connections e p = some l →
          l ≠ [] ∧ l = connectedPorts e p ∧ ∀ q, q ∈ l ↔ DirectlyConnected e p q) := by
  intro e p
  refine ⟨?_, ?_, ?_⟩
  · unfold jack_port_get_connections jack_port_connected
    by_cases h : (connectedPorts e p).isEmpty <;> simp [h]
  · unfold jack_port_connected
    simp [List.isEmpty_iff]
  · intro l hl
    unfold jack_port_get_connections at hl
    simp only at hl
    split at hl
    · simp at hl
    · rename_i hne
      have hll : l = connectedPorts e p := by
        cases hl
        rfl
      subst hll
      refine ⟨by simpa [List.isEmpty_iff] using hne, rfl, fun q => mem_connectedPorts e p q⟩

theorem get_connections_null_iff_witness :
    DirectlyConnected engConn "Q:in" "P:out" :=
  (((get_connections_null_iff engConn "Q:in").2.2 ["P:out"] (by decide)).2.2 "P:out").mp
    (by decide)

theorem find?_replacePort {pname : String} {newq : Port}
    (hname : (newq.fullName == pname) = true) :
    ∀ {l : List Port} {q : Port},
      l.find? (fun r => r.fullName == pname) = some q →
      (replacePort l pname newq).find? (fun r => r.fullName == pname) = some newq := by
  intro l
  induction l with
  | nil => intro q h; simp at h
  | cons x rest ih =>
    intro q h
    by_cases hx : (x.fullName == pname) = true
    · unfold replacePort
      rw [if_pos hx]
      exact List.find?_cons_of_pos _ hname
    · unfold replacePort
      rw [if_neg hx]
      rw [List.find?_cons_of_neg _ (by simpa using hx)] at h
      rw [List.find?_cons_of_neg _ (by simpa using hx)]
      exact ih h

/-- C9: on a `CanMonitor` port, `jack_port_ensure_monitor` forces the
monitor-request count to at least 1 on `on` and to exactly 0 on `off` (so
`jack_port_monitoring_input` then reports false), whatever the prior count;
on a port without `CanMonitor` it changes nothing. -/
theorem ensure_monitor_forces :
    ∀ e p,
      (canMonitorName e p = true →
        1 ≤ monitorCountName (jack_port_ensure_monitor e p true) p
        ∧ monitorCountName (jack_port_ensure_monitor e p false) p = 0
        ∧ jack_port_monitoring_input (jack_port_ensure_monitor e p false) p = false)
      ∧ (canMonitorName e p = false → ∀ b, jack_port_ensure_monitor e p b = e) := by
  intro e p
  constructor
  · intro hcan
    unfold canMonitorName at hcan
    cases hq : findPort e p with
    | none => rw [hq] at hcan; simp at hcan
    | some q =>
      rw [hq] at hcan
      simp at hcan
      have hq' : e.ports.find? (fun r => r.fullName == p) = some q := hq
      have hbeq : ((({ q with monitorCount := max q.monitorCount 1 } : Port).fullName == p) = true) := by
        have := (findPort_name hq).1
        simp [Port.fullName] at this ⊢
        simpa [Port.fullName] using this
      have hbeq0 : ((({ q with monitorCount := 0 } : Port).fullName == p) = true) := by
        have := (findPort_name hq).1
        simp [Port.fullName] at this ⊢
        simpa [Port.fullName] using this
      have h1 : monitorCountName (jack_port_ensure_monitor e p true) p = max q.monitorCount 1 := by
        unfold jack_port_ensure_monitor
        rw [hq]
        simp only [hcan, if_true]
        have hred : (if (true : Bool) = true then max q.monitorCount 1 else 0) = max q.monitorCount 1 := by simp
        try rw [hred]
        unfold monitorCountName findPort
        simp only
        rw [find?_replacePort hbeq hq']
        rfl
      have h2 : monitorCountName (jack_port_ensure_monitor e p false) p = 0 := by
        unfold jack_port_ensure_monitor
        rw [hq]
        simp only [hcan, if_true]
        have hred0 : (if (false : Bool) = true then max q.monitorCount 1 else 0) = 0 := by simp
        try rw [hred0]
        unfold monitorCountName findPort
        simp only
        rw [find?_replacePort hbeq0 hq']
        rfl
      refine ⟨by rw [h1]; exact Nat.le_max_right _ _, h2, ?_⟩
      unfold jack_port_monitoring_input
      rw [h2]
      rfl
  · intro hno b
    unfold jack_port_ensure_monitor
    cases hq : findPort e p with
    | none => rfl
    | some q =>
      unfold canMonitorName at hno
      rw [hq] at hno
      simp at hno
      simp [hno]

theorem ensure_monitor_forces_witness :
    monitorCountName (jack_port_ensure_monitor engMon "M:out" false) "M:out" = 0 :=
  ((ensure_monitor_forces engMon "M:out").1 (by decide)).2.1

theorem connect_error_taxonomy_witness :
    (jack_connect engC4 "A" "A:out" "B:in").1 = some JackError.Locked :=
  ((connect_error_taxonomy engC4 "A" "A:out" "B:in").2.1
    (mkPort "A" "out" audioType 2 0) ⟨"B", "in", audioType, 1, 0, 0, some "B"⟩
    (by decide) (by decide)).2.2.2.1.mpr (by decide)

/-! ### Cycle-driver theorems -/

theorem getD_map_range {n i : Nat} (f : Nat → ℚ) (hi : i < n) :
    ((List.range n).map f).getD i 0 = f i := by
  rw [List.getD_eq_getElem?_getD, List.getElem?_map, List.getElem?_range hi]
  rfl

/-- C2: at the moment a client's process callback runs, an input port's
buffer is: all-zero with no inbound connection, the single source's buffer
(aliased) with one, and with two or more an element-wise sum over all
inbound sources, sample by sample. -/
theorem port_buffer_routing :
    ∀ e bufs n p, isInputName e p = true →
      (inboundSources e p = [] → jack_port_get_buffer e bufs n p = List.replicate n 0)
      ∧ (∀ s, inboundSources e p = [s] → jack_port_get_buffer e bufs n p = bufs s)
      ∧ (2 ≤ (inboundSources e p).length →
          (jack_port_get_buffer e bufs n p).length = n
          ∧ ∀ i, i < n → (jack_port_get_buffer e bufs n p).getD i 0 =
              ((inboundSources e p).map (fun s => (bufs s).getD i 0)).sum) := by
  intro e bufs n p hin
  unfold jack_port_get_buffer
  rw [if_pos hin]
  refine ⟨?_, ?_, ?_⟩
  · intro h0
    unfold inputBufferAt
    rw [h0]
  · intro s h1
    unfold inputBufferAt
    rw [h1]
  · intro h2
    cases hsrc : inboundSources e p with
    | nil => rw [hsrc] at h2; simp at h2
    | cons a t =>
      cases t with
      | nil => rw [hsrc] at h2; simp at h2
      | cons b t' =>
        unfold inputBufferAt
        rw [hsrc]
        refine ⟨?_, ?_⟩
        · show (mixBuffer bufs (a :: b :: t') n).length = n
          unfold mixBuffer
          simp
        · intro i hi
          show (mixBuffer bufs (a :: b :: t') n).getD i 0 = _
          unfold mixBuffer
          rw [getD_map_range _ hi]

theorem port_buffer_routing_witness :
    (jack_port_get_buffer engMix bufsMix 4 "C:in").getD 0 0 = 7 / 2 := by
  have h := ((port_buffer_routing engMix bufsMix 4 "C:in" (by decide)).2.2
    (by decide)).2 0 (by decide)
  rw [h]
  norm_num [inboundSources, engMix, bufsMix]
  rw [if_neg (by decide : ¬(("B:out" : String) = "A:out"))]
  norm_num

theorem applyClient_not_owner {e : Engine}
    {beh : String → (String → List ℚ) → String → List ℚ} {ov : String → Bool}
    {n : Nat} {bufs : String → List ℚ} {c p : String}
    (h : portOwner e p ≠ some c) : applyClient e beh ov n bufs c p = bufs p := by
  unfold applyClient
  have hbeq : (portOwner e p == some c) = false := by
    simpa using h
  rw [hbeq]
  simp

theorem foldl_applyClient_preserve {e : Engine}
    {beh : String → (String → List ℚ) → String → List ℚ} {ov : String → Bool}
    {n : Nat} {c p : String} (hown : portOwner e p = some c) :
    ∀ (l : List String) (bufs : String → List ℚ), c ∉ l →
      l.foldl (applyClient e beh ov n) bufs p = bufs p := by
  intro l
  induction l with
  | nil => intro bufs _; rfl
  | cons d t ih =>
    intro bufs hnotin
    have hdc : c ≠ d := fun heq => hnotin (heq ▸ List.mem_cons_self d t)
    have hstep : applyClient e beh ov n bufs d p = bufs p := by
      refine applyClient_not_owner ?_
      rw [hown]
      intro hcon
      exact hdc (by simpa using hcon)
    show t.foldl (applyClient e beh ov n) (applyClient e beh ov n bufs d) p = bufs p
    rw [ih (applyClient e beh ov n bufs d) (fun hmem => hnotin (List.mem_cons_of_mem d hmem)), hstep]

theorem cycleBufs_decomp {e : Engine}
    {beh : String → (String → List ℚ) → String → List ℚ} {ov : String → Bool}
    {n : Nat} {c p : String} (hown : portOwner e p = some c)
    (l1 l2 : List String) (hnotin : c ∉ l2) :
    cycleBufs e beh ov n (l1 ++ c :: l2) p =
      applyClient e beh ov n (cycleBufs e beh ov n l1) c p := by
  unfold cycleBufs
  rw [List.foldl_append]
  exact foldl_applyClient_preserve hown l2 _ hnotin

theorem applyClient_owner_tie {e : Engine}
    {beh : String → (String → List ℚ) → String → List ℚ} {ov : String → Bool}
    {n : Nat} {bufs : String → List ℚ} {c o i : String}
    (hown : portOwner e o = some c) (hout : isOutputName e o = true)
    (hov : ov c = false) (htie : tieSourceFor e o = some i) :
    applyClient e beh ov n bufs c o = jack_port_get_buffer e bufs n i := by
  unfold applyClient
  simp [hown, hout, hov, htie]

theorem applyClient_owner_overrun {e : Engine}
    {beh : String → (String → List ℚ) → String → List ℚ} {ov : String → Bool}
    {n : Nat} {bufs : String → List ℚ} {c o : String}
    (hown : portOwner e o = some c) (hout : isOutputName e o = true)
    (hov : ov c = true) :
    applyClient e beh ov n bufs c o = List.replicate n 0 := by
  unfold applyClient
  simp [hown, hout, hov]

theorem applyClient_owner_notie {e : Engine}
    {beh : String → (String → List ℚ) → String → List ℚ} {ov : String → Bool}
    {n : Nat} {bufs : String → List ℚ} {c o : String}
    (hown : portOwner e o = some c) (hout : isOutputName e o = true)
    (hov : ov c = false) (htie : tieSourceFor e o = none) :
    applyClient e beh ov n bufs c o = beh c (jack_port_get_buffer e bufs n) o := by
  unfold applyClient
  simp [hown, hout, hov, htie]

/-- C5: a tie from an input port to an output port of the same client makes
the output port's end-of-cycle buffer equal the tied input port's
post-callback contents, whatever the client's callback wrote; a tie whose
source is not an input, whose destination is not an output, or whose ports
belong to different clients is rejected, leaving the engine unchanged. -/
theorem tie_overrides_callback :
    (∀ e beh ov n l1 c l2 i o,
      portOwner e o = some c → isOutputName e o = true →
      tieSourceFor e o = some i → c ∉ l2 → ov c = false →
      cycleBufs e beh ov n (l1 ++ c :: l2) o =
        jack_port_get_buffer e (cycleBufs e beh ov n l1) n i)
    ∧ (∀ e src dst, (jack_port_tie e src dst).1 = none ↔
        (isInputName e src = true ∧ isOutputName e dst = true ∧
         portOwner e src = portOwner e dst ∧ portOwner e src ≠ none))
    ∧ (∀ e src dst err, (jack_port_tie e src dst).1 = some err →
        (jack_port_tie e src dst).2 = e) := by
  refine ⟨?_, ?_, ?_⟩
  · intro e beh ov n l1 c l2 i o hown hout htie hnotin hov
    rw [cycleBufs_decomp hown l1 l2 hnotin]
    exact applyClient_owner_tie hown hout hov htie
  · intro e src dst
    unfold jack_port_tie
    cases hs : findPort e src with
    | none => simp [isInputName, hs]
    | some ps =>
      cases hd : findPort e dst with
      | none => simp [isInputName, isOutputName, hs, hd]
      | some pd =>
        simp only
        split_ifs <;> simp_all [isInputName, isOutputName, portOwner] <;>
          try (intros; simp_all)
  · intro e src dst err h
    unfold jack_port_tie at h ⊢
    cases hs : findPort e src with
    | none => rfl
    | some ps =>
      cases hd : findPort e dst with
      | none => rfl
      | some pd =>
        rw [hs, hd] at h
        simp only at h ⊢
        split_ifs at h ⊢ <;> simp_all

theorem tie_overrides_callback_witness :
    cycleBufs engTie behTie ovNone 4 ["E", "X"] "X:out" = [7, 7, 7, 7] := by
  have h := tie_overrides_callback.1 engTie behTie ovNone 4 ["E"] "X" [] "X:in" "X:out"
    (by decide) (by decide) (by decide) (by decide) (by decide)
  rw [show (["E"] ++ "X" :: [] : List String) = ["E", "X"] from rfl] at h
  rw [h]
  decide

/-- C8: a client marked overrun has all its output buffers for the cycle
treated as silence, every subsequent client of the run-list is still
dispatched (a later non-overrun client's outputs are its callback's
writes), an `Overrun` notification names exactly the overrun clients of the
run-list, the next cycle keeps the same run-list, and a downstream input
aliasing a silenced output reads zeros. -/
theorem overrun_silences_and_continues :
    (∀ e beh ov n l1 y l2 o,
      portOwner e o = some y → isOutputName e o = true → ov y = true → y ∉ l2 →
      cycleBufs e beh ov n (l1 ++ y :: l2) o = List.replicate n 0)
    ∧ (∀ e beh ov n l1 d l2 o,
      portOwner e o = some d → isOutputName e o = true → ov d = false → d ∉ l2 →
      tieSourceFor e o = none →
      cycleBufs e beh ov n (l1 ++ d :: l2) o =
        beh d (jack_port_get_buffer e (cycleBufs e beh ov n l1) n) o)
    ∧ (∀ e beh ov n order y,
        y ∈ (runCycle e beh ov n order).overrunClients ↔ (y ∈ order ∧ ov y = true))
    ∧ (∀ e beh ov n order, (runCycle e beh ov n order).nextOrder = order)
    ∧ (∀ e bufs n z o, inboundSources e z = [o] → bufs o = List.replicate n 0 →
        isInputName e z = true → jack_port_get_buffer e bufs n z = List.replicate n 0) := by
  refine ⟨?_, ?_, ?_, ?_, ?_⟩
  · intro e beh ov n l1 y l2 o hown hout hov hnotin
    rw [cycleBufs_decomp hown l1 l2 hnotin]
    exact applyClient_owner_overrun hown hout hov
  · intro e beh ov n l1 d l2 o hown hout hov hnotin htie
    rw [cycleBufs_decomp hown l1 l2 hnotin]
    exact applyClient_owner_notie hown hout hov htie
  · intro e beh ov n order y
    unfold runCycle
    simp [List.mem_filter]
  · intro e beh ov n order
    rfl
  · intro e bufs n z o hsrc hzero hin
    unfold jack_port_get_buffer
    rw [if_pos hin]
    unfold inputBufferAt
    rw [hsrc]
    show bufs o = List.replicate n 0
    exact hzero

theorem overrun_silences_and_continues_witness :
    cycleBufs engChain behChain ovY 4 ["A", "Y", "Z"] "Y:out" = List.replicate 4 0 :=
  overrun_silences_and_continues.1 engChain behChain ovY 4 ["A"] "Y" ["Z"] "Y:out"
    (by decide) (by decide) (by decide) (by decide)

/-! ### Run-list theorems -/

theorem not_ready_blocker {E : List (String × String)} {rem : List String} {c : String}
    (h : ¬ readyB E rem c = true) : ∃ a ∈ rem, (a, c) ∈ E := by
  have h' : E.any (fun pr => pr.2 == c && rem.contains pr.1) = true := by
    revert h
    unfold readyB
    cases E.any (fun pr => pr.2 == c && rem.contains pr.1) <;> simp
  rcases List.any_eq_true.mp h' with ⟨⟨a, b⟩, hmem, hcond⟩
  simp only [Bool.and_eq_true, beq_iff_eq] at hcond
  obtain ⟨hb, hcont⟩ := hcond
  subst hb
  exact ⟨a, by simpa using hcont, hmem⟩

theorem ready_no_blocker {E : List (String × String)} {rem : List String} {c a : String}
    (h : readyB E rem c = true) (ha : a ∈ rem) : (a, c) ∉ E := by
  intro hedge
  unfold readyB at h
  have : E.any (fun pr => pr.2 == c && rem.contains pr.1) = true :=
    List.any_eq_true.mpr ⟨(a, c), hedge, by simp [ha]⟩
  rw [this] at h
  simp at h

/-- In a finite acyclic graph, every nonempty remaining set has a ready
element. -/
theorem exists_ready {E : List (String × String)} (hacyc : AcyclicE E)
    (rem : List String) (hne : rem ≠ []) : ∃ c ∈ rem, readyB E rem c = true := by
  classical
  suffices haux : ∀ (k : Nat) (c : String), c ∈ rem →
      (rem.toFinset.filter (fun x => Relation.TransGen (eRel E) x c)).card ≤ k →
      ∃ c' ∈ rem, readyB E rem c' = true by
    rcases List.exists_mem_of_ne_nil rem hne with ⟨c, hc⟩
    exact haux _ c hc (Nat.le_refl _)
  intro k
  induction k with
  | zero =>
    intro c hc hcard
    by_cases hr : readyB E rem c = true
    · exact ⟨c, hc, hr⟩
    · exfalso
      rcases not_ready_blocker hr with ⟨a, ha, hedge⟩
      have hmem : a ∈ rem.toFinset.filter (fun x => Relation.TransGen (eRel E) x c) := by
        simp only [Finset.mem_filter, List.mem_toFinset]
        exact ⟨ha, Relation.TransGen.single hedge⟩
      have := Finset.card_pos.mpr ⟨a, hmem⟩
      omega
  | succ k ih =>
    intro c hc hcard
    by_cases hr : readyB E rem c = true
    · exact ⟨c, hc, hr⟩
    · rcases not_ready_blocker hr with ⟨a, ha, hedge⟩
      refine ih a ha ?_
      have hsub : rem.toFinset.filter (fun x => Relation.TransGen (eRel E) x a) ⊆
          rem.toFinset.filter (fun x => Relation.TransGen (eRel E) x c) := by
        intro x hx
        simp only [Finset.mem_filter, List.mem_toFinset] at hx ⊢
        exact ⟨hx.1, hx.2.tail hedge⟩
      have hmemc : a ∈ rem.toFinset.filter (fun x => Relation.TransGen (eRel E) x c) := by
        simp only [Finset.mem_filter, List.mem_toFinset]
        exact ⟨ha, Relation.TransGen.single hedge⟩
      have hnmema : a ∉ rem.toFinset.filter (fun x => Relation.TransGen (eRel E) x a) := by
        simp only [Finset.mem_filter, List.mem_toFinset]
        intro hx
        exact hacyc a hx.2
      have hss := (Finset.ssubset_iff_of_subset hsub).mpr ⟨a, hmemc, hnmema⟩
      have := Finset.card_lt_card hss
      omega

/-- With an acyclic edge set and enough fuel, Kahn's loop emits every
remaining client exactly once. -/
theorem kahnAux_perm {E : List (String × String)} (hacyc : AcyclicE E) :
    ∀ (k : Nat) (rem : List String), rem.length ≤ k →
      (kahnAux E k rem).Perm rem := by
  intro k
  induction k with
  | zero =>
    intro rem hlen
    have : rem = [] := List.length_eq_zero.mp (Nat.le_zero.mp hlen)
    subst this
    simp [kahnAux]
  | succ k ih =>
    intro rem hlen
    by_cases hrem : rem = []
    · subst hrem
      simp [kahnAux]
    · obtain ⟨c, hc, hready⟩ := exists_ready hacyc rem hrem
      have hfind : rem.find? (readyB E rem) ≠ none := by
        rw [Ne, List.find?_eq_none]
        push_neg
        exact ⟨c, hc, hready⟩
      rcases Option.ne_none_iff_exists'.mp hfind with ⟨c', hc'⟩
      have hc'mem : c' ∈ rem := List.mem_of_find?_eq_some hc'
      have hkahn : kahnAux E (k + 1) rem = c' :: kahnAux E k (rem.erase c') := by
        rw [kahnAux]
        simp only [hc']
      rw [hkahn]
      have hlen' : (rem.erase c').length ≤ k := by
        rw [List.length_erase_of_mem hc'mem]
        omega
      have hperm := ih (rem.erase c') hlen'
      exact ((hperm.cons c').trans (List.perm_cons_erase hc'mem).symm)

/-- With an acyclic edge set, every connection is respected by the Kahn
order: the source's client is emitted before the destination's client. -/
theorem kahnAux_edge_order {E : List (String × String)} (hacyc : AcyclicE E) :
    ∀ (k : Nat) (rem : List String), rem.length ≤ k → rem.Nodup →
      ∀ a b, (a, b) ∈ E → a ∈ rem → b ∈ rem →
        [a, b].Sublist (kahnAux E k rem) := by
  intro k
  induction k with
  | zero =>
    intro rem hlen _ a b _ ha _
    have : rem = [] := List.length_eq_zero.mp (Nat.le_zero.mp hlen)
    subst this
    simp at ha
  | succ k ih =>
    intro rem hlen hnd a b hab ha hb
    have hrem : rem ≠ [] := List.ne_nil_of_mem ha
    obtain ⟨c0, hc0, hready0⟩ := exists_ready hacyc rem hrem
    have hfind : rem.find? (readyB E rem) ≠ none := by
      rw [Ne, List.find?_eq_none]
      push_neg
      exact ⟨c0, hc0, hready0⟩
    rcases Option.ne_none_iff_exists'.mp hfind with ⟨c, hc⟩
    have hcmem : c ∈ rem := List.mem_of_find?_eq_some hc
    have hcready : readyB E rem c = true := List.find?_some hc
    have hkahn : kahnAux E (k + 1) rem = c :: kahnAux E k (rem.erase c) := by
      rw [kahnAux]
      simp only [hc]
    rw [hkahn]
    have hlen' : (rem.erase c).length ≤ k := by
      rw [List.length_erase_of_mem hcmem]
      omega
    by_cases hbc : b = c
    · exact absurd hab (hbc ▸ ready_no_blocker hcready ha)
    by_cases hac : a = c
    · subst hac
      have hbmem : b ∈ rem.erase a := (List.mem_erase_of_ne hbc).mpr hb
      have hbk : b ∈ kahnAux E k (rem.erase a) :=
        (kahnAux_perm hacyc k (rem.erase a) hlen').mem_iff.mpr hbmem
      exact (List.singleton_sublist.mpr hbk).cons₂ a
    · have hamem : a ∈ rem.erase c := (List.mem_erase_of_ne hac).mpr ha
      have hbmem : b ∈ rem.erase c := (List.mem_erase_of_ne hbc).mpr hb
      exact (ih (rem.erase c) hlen' (hnd.erase c) a b hab hamem hbmem).cons c

theorem find?_first {α : Type} {p : α → Bool} :
    ∀ {l : List α} {a : α}, l.find? p = some a →
      ∃ l1 l2, l = l1 ++ a :: l2 ∧ ∀ x ∈ l1, p x = false := by
  intro l
  induction l with
  | nil => intro a h; simp at h
  | cons x t ih =>
    intro a h
    by_cases hx : p x = true
    · rw [List.find?_cons_of_pos t hx] at h
      cases h
      exact ⟨[], t, rfl, by simp⟩
    · rw [List.find?_cons_of_neg t hx] at h
      rcases ih h with ⟨l1, l2, hsplit, hall⟩
      refine ⟨x :: l1, l2, by rw [hsplit]; rfl, ?_⟩
      intro y hy
      rcases List.mem_cons.mp hy with rfl | hy'
      · simpa using hx
      · exact hall y hy'

/-- C3 (amended): on an acyclic client graph the run-list is a permutation
of the registered clients in which, for every connection `A.out → B.in`,
the client of A appears before the client of B; and at every step the
emitted client is the registration-earliest among those with no inbound
connection from a not-yet-emitted client (ties among simultaneously ready
clients are broken by registration order). -/
theorem runlist_topological_order :
    (∀ e, AcyclicClients e → e.clients.Nodup →
      (runList e).Perm e.clients
      ∧ (∀ a b, (a, b) ∈ clientEdges e → a ∈ e.clients → b ∈ e.clients →
          [a, b].Sublist (runList e)))
    ∧ (∀ (E : List (String × String)) (k : Nat) (rem : List String) c rest,
        kahnAux E (k + 1) rem = c :: rest →
        readyB E rem c = true ∧ rest = kahnAux E k (rem.erase c) ∧
        ∃ l1 l2, rem = l1 ++ c :: l2 ∧ ∀ d ∈ l1, readyB E rem d = false) := by
  constructor
  · intro e hacyc hnd
    refine ⟨kahnAux_perm hacyc _ _ (Nat.le_refl _), ?_⟩
    intro a b hab ha hb
    exact kahnAux_edge_order hacyc _ _ (Nat.le_refl _) hnd a b hab ha hb
  · intro E k rem c rest h
    unfold kahnAux at h
    cases hf : rem.find? (readyB E rem) with
    | none => rw [hf] at h; simp at h
    | some c' =>
      rw [hf] at h
      simp only [List.cons.injEq] at h
      obtain ⟨rfl, hrest⟩ := h
      refine ⟨List.find?_some hf, hrest.symm, ?_⟩
      rcases find?_first hf with ⟨l1, l2, hsplit, hall⟩
      exact ⟨l1, l2, hsplit, hall⟩

theorem runlist_topological_order_witness :
    ["C", "A"].Sublist (runList engC3) :=
  ((runlist_topological_order.1 engC3 (acyclicEB_iff.mp (by decide)) (by decide)).2
    "C" "A" (by decide) (by decide) (by decide))

/-- C3 as frozen is false: in `engC3` (clients registered A, B, C; single
connection `C:out → A:in`) the clients A and B are unordered by
connections, A registered before B, yet the run-list is `[B, C, A]` with B
before A. -/
theorem runlist_tiebreak_counterexample :
    runList engC3 = ["B", "C", "A"]
    ∧ (¬ Relation.ReflTransGen (eRel (clientEdges engC3)) "A" "B")
    ∧ (¬ Relation.ReflTransGen (eRel (clientEdges engC3)) "B" "A")
    ∧ engC3.clients.indexOf "A" < engC3.clients.indexOf "B"
    ∧ (runList engC3).indexOf "B" < (runList engC3).indexOf "A" := by
  refine ⟨by decide, ?_, ?_, by decide, by decide⟩
  · intro h
    exact absurd (reachesB_complete h) (by decide)
  · intro h
    exact absurd (reachesB_complete h) (by decide)

/-! ### Latency theorems -/

theorem le_maxNat_of_mem : ∀ {l : List Nat} {x : Nat}, x ∈ l → x ≤ maxNat l := by
  intro l
  induction l with
  | nil => intro x hx; simp at hx
  | cons a t ih =>
    intro x hx
    rcases List.mem_cons.mp hx with rfl | hx'
    · exact Nat.le_max_left _ _
    · exact Nat.le_trans (ih hx') (Nat.le_max_right _ _)

theorem maxNat_mem_of_ne_nil : ∀ {l : List Nat}, l ≠ [] → maxNat l ∈ l := by
  intro l
  induction l with
  | nil => intro h; exact absurd rfl h
  | cons a t ih =>
    intro _
    show max a (maxNat t) ∈ a :: t
    rcases max_choice a (maxNat t) with hm | hm
    · rw [hm]; exact List.mem_cons_self _ _
    · rw [hm]
      by_cases ht : t = []
      · subst ht
        have h0 : maxNat ([] : List Nat) = 0 := rfl
        rw [h0] at hm ⊢
        rw [Nat.max_zero] at hm
        rw [hm]
        exact List.mem_singleton.mpr rfl
      · exact List.mem_cons_of_mem a (ih ht)

theorem succs_resolves {e : Engine} {p q : String} (h : q ∈ succs e p) :
    ∃ pp, findPort e p = some pp := by
  unfold succs at h
  cases hf : findPort e p with
  | none => rw [hf] at h; simp at h
  | some pp => exact ⟨pp, rfl⟩

theorem terminal_resolves {e : Engine} {p : String} (h : isTerminalName e p = true) :
    ∃ pp, findPort e p = some pp := by
  unfold isTerminalName at h
  cases hf : findPort e p with
  | none => rw [hf] at h; simp at h
  | some pp => exact ⟨pp, rfl⟩

theorem resolves_mem_portNames {e : Engine} {p : String} {pp : Port}
    (h : findPort e p = some pp) : p ∈ portNames e := by
  rcases findPort_name h with ⟨hname, hmem⟩
  exact hname ▸ List.mem_map_of_mem Port.fullName hmem

theorem succs_iff_portEdges {e : Engine} {p q : String} :
    q ∈ succs e p ↔ (p, q) ∈ portEdges e := by
  unfold portEdges
  rw [List.mem_flatten]
  constructor
  · intro h
    rcases succs_resolves h with ⟨pp, hpp⟩
    refine ⟨(succs e p).map (fun q' => (p, q')), ?_, ?_⟩
    · exact List.mem_map_of_mem _ (resolves_mem_portNames hpp)
    · exact List.mem_map_of_mem _ h
  · rintro ⟨L, hL, hq⟩
    rcases List.mem_map.mp hL with ⟨pn, _, rfl⟩
    rcases List.mem_map.mp hq with ⟨q', hq', heq⟩
    have h1 : pn = p := congrArg Prod.fst heq
    have h2 : q' = q := congrArg Prod.snd heq
    subst h1
    subst h2
    exact hq'

theorem termPath_resolves {e : Engine} :
    ∀ {p l}, TermPath e p l → ∀ x ∈ l, ∃ px, findPort e x = some px := by
  intro p l h
  induction h with
  | term p hterm =>
    intro x hx
    rcases List.mem_singleton.mp hx with rfl
    exact terminal_resolves hterm
  | step p q l hterm hq _ ih =>
    intro x hx
    rcases List.mem_cons.mp hx with rfl | hx'
    · exact succs_resolves hq
    · exact ih x hx'

theorem termPath_subset_names {e : Engine} {p : String} {l : List String}
    (h : TermPath e p l) : ∀ x ∈ l, x ∈ portNames e := by
  intro x hx
  rcases termPath_resolves h x hx with ⟨px, hpx⟩
  exact resolves_mem_portNames hpx

theorem termPath_rtg {e : Engine} :
    ∀ {p l}, TermPath e p l →
      ∀ x ∈ l, Relation.ReflTransGen (eRel (portEdges e)) p x := by
  intro p l h
  induction h with
  | term p _ =>
    intro x hx
    rcases List.mem_singleton.mp hx with rfl
    exact Relation.ReflTransGen.refl
  | step p q l _ hq _ ih =>
    intro x hx
    rcases List.mem_cons.mp hx with rfl | hx'
    · exact Relation.ReflTransGen.refl
    · exact Relation.ReflTransGen.head (succs_iff_portEdges.mp hq) (ih x hx')

theorem termPath_nodup {e : Engine} (hacyc : AcyclicE (portEdges e)) :
    ∀ {p l}, TermPath e p l → l.Nodup := by
  intro p l h
  induction h with
  | term p _ => simp
  | step p q l _ hq htl ih =>
    refine List.nodup_cons.mpr ⟨?_, ih⟩
    intro hmem
    have hrtg : Relation.ReflTransGen (eRel (portEdges e)) q p := termPath_rtg htl p hmem
    exact hacyc p (Relation.TransGen.head' (succs_iff_portEdges.mp hq) hrtg)

theorem termPath_length_le {e : Engine} (hacyc : AcyclicE (portEdges e))
    {p : String} {l : List String} (h : TermPath e p l) :
    l.length ≤ e.ports.length := by
  have hnd := termPath_nodup hacyc h
  have h1 : l.toFinset.card = l.length := List.toFinset_card_of_nodup hnd
  have h2 : l.toFinset ⊆ (portNames e).toFinset := by
    intro x hx
    exact List.mem_toFinset.mpr (termPath_subset_names h x (List.mem_toFinset.mp hx))
  have h3 := Finset.card_le_card h2
  have h4 : (portNames e).toFinset.card ≤ (portNames e).length :=
    (portNames e).toFinset_card_le
  have h5 : (portNames e).length = e.ports.length := List.length_map _ _
  omega

theorem termPathsB_sound {e : Engine} :
    ∀ (n : Nat) (p : String) (l : List String),
      l ∈ termPathsB e n p → TermPath e p l := by
  intro n
  induction n with
  | zero =>
    intro p l h
    unfold termPathsB at h
    split at h
    · rcases List.mem_singleton.mp h with rfl
      exact TermPath.term p (by assumption)
    · simp at h
  | succ k ih =>
    intro p l h
    unfold termPathsB at h
    split at h
    · rcases List.mem_singleton.mp h with rfl
      exact TermPath.term p (by assumption)
    · rename_i hterm
      rcases List.mem_flatten.mp h with ⟨L, hL, hl⟩
      rcases List.mem_map.mp hL with ⟨q, hq, rfl⟩
      rcases List.mem_map.mp hl with ⟨l', hl', rfl⟩
      exact TermPath.step p q l' (by simpa using hterm) hq (ih q l' hl')

theorem termPath_ne_nil {e : Engine} {p : String} {l : List String}
    (h : TermPath e p l) : l ≠ [] := by
  cases h with
  | term => simp
  | step => simp

theorem termPathsB_complete {e : Engine} :
    ∀ {p l}, TermPath e p l → ∀ n, l.length ≤ n + 1 → l ∈ termPathsB e n p := by
  intro p l h
  induction h with
  | term p hterm =>
    intro n _
    cases n with
    | zero => unfold termPathsB; rw [if_pos hterm]; exact List.mem_singleton.mpr rfl
    | succ k => unfold termPathsB; rw [if_pos hterm]; exact List.mem_singleton.mpr rfl
  | step p q l hterm hq htl ih =>
    intro n hlen
    cases n with
    | zero =>
      exfalso
      simp only [List.length_cons] at hlen
      have h1 : l.length = 0 := by omega
      exact termPath_ne_nil htl (List.length_eq_zero.mp h1)
    | succ k =>
      unfold termPathsB
      rw [if_neg (by simp [hterm])]
      refine List.mem_flatten.mpr ⟨(termPathsB e k q).map (p :: ·), ?_, ?_⟩
      · exact List.mem_map_of_mem _ hq
      · refine List.mem_map_of_mem _ (ih k ?_)
        simp only [List.length_cons] at hlen
        omega

theorem pathSum_cons (e : Engine) (p : String) (l : List String) :
    pathSum e (p :: l) = latencyName e p + pathSum e l := by
  unfold pathSum
  simp

theorem pathSum_le_total {e : Engine} (hacyc : AcyclicE (portEdges e))
    {p : String} {l : List String} (h : TermPath e p l) :
    pathSum e l ≤ jack_port_get_total_latency e p := by
  unfold jack_port_get_total_latency
  refine le_maxNat_of_mem (List.mem_map_of_mem _ ?_)
  refine termPathsB_complete h e.ports.length ?_
  exact Nat.le_succ_of_le (termPath_length_le hacyc h)

theorem total_achieved {e : Engine} (hacyc : AcyclicE (portEdges e)) (p : String) :
    (∃ l, TermPath e p l ∧ pathSum e l = jack_port_get_total_latency e p)
    ∨ ((∀ l, ¬ TermPath e p l) ∧ jack_port_get_total_latency e p = 0) := by
  by_cases hL : termPathsB e e.ports.length p = []
  · right
    constructor
    · intro l hl
      have := termPathsB_complete hl e.ports.length
        (Nat.le_succ_of_le (termPath_length_le hacyc hl))
      rw [hL] at this
      simp at this
    · unfold jack_port_get_total_latency
      rw [hL]
      rfl
  · left
    have hne : ((termPathsB e e.ports.length p).map (pathSum e)) ≠ [] := by
      simpa using hL
    have hmem := maxNat_mem_of_ne_nil hne
    rcases List.mem_map.mp hmem with ⟨l, hl, hsum⟩
    exact ⟨l, termPathsB_sound _ p l hl, by
      unfold jack_port_get_total_latency
      exact hsum⟩

/-- C6: in an accepted (acyclic) graph, `jack_port_get_total_latency` is the
maximum over all latency paths from the port to a terminal port of the sum
of declared latencies along the path (every path's sum is bounded by it,
and it is attained by some path, being 0 exactly when no terminal is
reachable); on the spec's scenario the total latency of `A:in` is
64+0+0+128+32 = 224. -/
theorem total_latency_max_paths :
    (∀ e p, acyclicEB (portEdges e) = true →
      (∀ l, TermPath e p l → pathSum e l ≤ jack_port_get_total_latency e p)
      ∧ ((∃ l, TermPath e p l ∧ pathSum e l = jack_port_get_total_latency e p)
         ∨ ((∀ l, ¬ TermPath e p l) ∧ jack_port_get_total_latency e p = 0)))
    ∧ jack_port_get_total_latency scen6 "A:in" = 224 := by
  constructor
  · intro e p hB
    have hacyc : AcyclicE (portEdges e) := acyclicEB_iff.mp hB
    exact ⟨fun l hl => pathSum_le_total hacyc hl, total_achieved hacyc p⟩
  · decide

theorem total_latency_max_paths_witness :
    pathSum scen6 ["A:in", "A:out", "B:in", "B:out", "OUT:in"] ≤
      jack_port_get_total_latency scen6 "A:in" :=
  (total_latency_max_paths.1 scen6 "A:in" (by decide)).1 _
    (TermPath.step _ "A:out" _ (by decide) (by decide)
      (TermPath.step _ "B:in" _ (by decide) (by decide)
        (TermPath.step _ "B:out" _ (by decide) (by decide)
          (TermPath.step _ "OUT:in" _ (by decide) (by decide)
            (TermPath.term _ (by decide))))))

/-- C7 as frozen is false on the spec's own latency scenario: `A:in` has no
inbound connection and declared latency 64, yet its total latency is 224,
not 64 (latency accumulates along outbound paths towards terminals, not
along inbound connections). -/
theorem total_latency_inbound_counterexample :
    inboundSources scen6 "A:in" = []
    ∧ latencyName scen6 "A:in" = 64
    ∧ jack_port_get_total_latency scen6 "A:in" = 224
    ∧ jack_port_get_total_latency scen6 "A:in" ≠ latencyName scen6 "A:in" := by
  refine ⟨by decide, by decide, by decide, by decide⟩

/-- C7 (amended): total latency satisfies the forward recursion — for a
terminal port (in particular a terminal output) it equals the declared
latency; for a non-terminal port it is 0 when no successor (outbound
connection of an output, same-client pseudo-edge of an input) reaches a
terminal, and otherwise equals the port's declared latency plus the
maximum total latency over the successors that reach a terminal. -/
theorem total_latency_recursion :
    ∀ e p, acyclicEB (portEdges e) = true →
      (isTerminalName e p = true →
        jack_port_get_total_latency e p = latencyName e p)
      ∧ (isTerminalName e p = false →
          ((∀ q ∈ succs e p, ∀ l, ¬ TermPath e q l) →
            jack_port_get_total_latency e p = 0)
          ∧ (∀ q ∈ succs e p, ∀ l, TermPath e q l →
              latencyName e p + jack_port_get_total_latency e q ≤
                jack_port_get_total_latency e p)
          ∧ ((∃ q ∈ succs e p, ∃ l, TermPath e q l) →
              ∃ q ∈ succs e p, (∃ l, TermPath e q l) ∧
                jack_port_get_total_latency e p =
                  latencyName e p + jack_port_get_total_latency e q)) := by
  intro e p hB
  have hacyc : AcyclicE (portEdges e) := acyclicEB_iff.mp hB
  have hbound : ∀ q (l : List String), TermPath e q l →
      latencyName e p + jack_port_get_total_latency e q ≤
        jack_port_get_total_latency e p →
      True := fun _ _ _ _ => trivial
  constructor
  · intro hterm
    have hlist : termPathsB e e.ports.length p = [[p]] := by
      cases e.ports.length with
      | zero => unfold termPathsB; rw [if_pos hterm]
      | succ k => unfold termPathsB; rw [if_pos hterm]
    unfold jack_port_get_total_latency
    rw [hlist]
    show max (pathSum e [p]) 0 = latencyName e p
    rw [Nat.max_zero]
    unfold pathSum
    simp
  · intro hterm
    have hstep : ∀ q, q ∈ succs e p → ∀ l, TermPath e q l → TermPath e p (p :: l) :=
      fun q hq l hl => TermPath.step p q l hterm hq hl
    have hsuccbound : ∀ q ∈ succs e p, ∀ l, TermPath e q l →
        latencyName e p + jack_port_get_total_latency e q ≤
          jack_port_get_total_latency e p := by
      intro q hq l hl
      rcases total_achieved hacyc q with ⟨l₀, hl₀, hsum₀⟩ | ⟨hno, _⟩
      · have := pathSum_le_total hacyc (hstep q hq l₀ hl₀)
        rw [pathSum_cons, hsum₀] at this
        exact this
      · exact absurd hl (hno l)
    refine ⟨?_, hsuccbound, ?_⟩
    · intro hno
      rcases total_achieved hacyc p with ⟨l, hl, hsum⟩ | ⟨_, hzero⟩
      · exfalso
        cases hl with
        | term => simp_all
        | step p q l' _ hq htl => exact hno q hq l' htl
      · exact hzero
    · rintro ⟨q, hq, l, hl⟩
      rcases total_achieved hacyc p with ⟨L, hL, hsumL⟩ | ⟨hno, _⟩
      · cases hL with
        | term => simp_all
        | step p q₁ l₁ _ hq₁ htl₁ =>
          refine ⟨q₁, hq₁, ⟨l₁, htl₁⟩, ?_⟩
          have h1 : pathSum e l₁ ≤ jack_port_get_total_latency e q₁ :=
            pathSum_le_total hacyc htl₁
          have h2 := hsuccbound q₁ hq₁ l₁ htl₁
          rw [pathSum_cons] at hsumL
          omega
      · exact absurd (hstep q hq l hl) (hno (p :: l))

theorem total_latency_recursion_witness :
    latencyName scen6 "B:out" + jack_port_get_total_latency scen6 "OUT:in" ≤
      jack_port_get_total_latency scen6 "B:out" :=
  ((total_latency_recursion scen6 "B:out" (by decide)).2 (by decide)).2.1 "OUT:in"
    (by decide) ["OUT:in"] (TermPath.term _ (by decide))

end Jack

